import Mathlib

/-!
Verification of the aggregation-tree core (`tree`, `Aggregations`, `IsNilTree`)
of the aggretastic package.

Modelling conventions, justified against the Go source:

* `elastic.Aggregation` values are opaque to the core: only their identity
  (and nil-ness) is ever observed.  We model them by `Nat`, and a possibly-nil
  reference by `Option ElasticAgg`.
* Every implementation of the `Aggregation` interface in the repository is a
  concrete struct embedding `*tree`, and all five interface methods are the
  embedded tree methods.  The interface is therefore modelled by the tree
  itself: an inductive `Aggregation` holding the `root` back-reference and the
  `subAggregations` map.
* A Go `map[string]Aggregation` is modelled extensionally as a function
  `String → Option Aggregation` (`none` = key absent).  `m[k] = v` and
  `delete(m, k)` become the pointwise update `mapSet`.
* Methods mutate nodes in place through shared pointers; the pure rendering
  passes state explicitly: each operation returns its result together with the
  updated receiver, and a mutation performed through a pointer obtained by
  `Select` is rendered as a functional update along the selected path
  (`modifyAt`).
* The root collection methods have pointer receivers that Go allows to be nil;
  the receiver is modelled as `Option Aggregations` where the source checks
  `a == nil`.  `Select` and `Pop` perform no such check: their faithful
  `Ptr` variants return `none` exactly when the Go code would dereference the
  nil pointer (a run-time panic).
-/

/-- Stand-in for the third-party `elastic.Aggregation` interface type.  The
core never inspects these values; only identity and nil-ness matter. -/
abbrev ElasticAgg := Nat

/-- The `tree` struct (the sole implementation of the `Aggregation`
interface): a nilable back-reference `root` to the owning node, and the
`subAggregations` map from child name to child node. -/
inductive Aggregation : Type where
  | mk (root : Option ElasticAgg) (subAggregations : String → Option Aggregation)

/-- Field accessor for `root`. -/
def Aggregation.root : Aggregation → Option ElasticAgg
  | .mk r _ => r

/-- Field accessor for `subAggregations`. -/
def Aggregation.subAggregations : Aggregation → (String → Option Aggregation)
  | .mk _ s => s

/-- Shorthand type for a collection of aggregations,
`type Aggregations map[string]Aggregation`. -/
abbrev Aggregations := String → Option Aggregation

/-- Pointwise map update: models both `m[k] = v` (with `v = some node`) and
`delete(m, k)` (with `v = none`) on a Go map. -/
def mapSet (m : Aggregations) (k : String) (v : Option Aggregation) : Aggregations :=
  fun q => if q = k then v else m q

/-- Method `(a *tree) Export() elastic.Aggregation`: returns the back
reference `a.root`. -/
def Aggregation.Export (a : Aggregation) : Option ElasticAgg :=
  a.root

/-- Method `(a *tree) GetAllSubs()`: returns the live child map. -/
def Aggregation.GetAllSubs (a : Aggregation) : Aggregations :=
  a.subAggregations

/-- Constructor `nilAggregationTree(root)`: a tree with the given root and an
empty child map. -/
def nilAggregationTree (root : Option ElasticAgg) : Aggregation :=
  .mk root (fun _ => none)

/-- Function `IsNilTree(t)`: true when the reference is nil or when
`t.Export()` is nil. -/
def IsNilTree : Option Aggregation → Bool
  | none => true
  | some t => t.Export.isNone

/-- The three error sentinels of the package. -/
inductive AggError : Type where
  | ErrNoPath
  | ErrPathNotSelectable
  | ErrAggIsNotInjectable
deriving DecidableEq, Repr

/-- Method `(a *tree) Select(path ...string)`: empty path yields nil; otherwise
look up the first segment and descend. -/
def Aggregation.Select : Aggregation → List String → Option Aggregation
  | _, [] => none
  | a, k :: rest =>
    match a.subAggregations k with
    | none => none
    | some subAgg =>
      match rest with
      | [] => some subAgg
      | _ => subAgg.Select rest

/-- Functional rendering of a mutation performed in place on the node that
`Select` resolves at the given path: rebuild the tree with the node at that
path replaced by its image under `f` (identity when the path does not
resolve, which never happens where this is used). -/
def Aggregation.modifyAt : Aggregation → List String → (Aggregation → Aggregation) → Aggregation
  | a, [], f => f a
  | a, k :: rest, f =>
    match a.subAggregations k with
    | none => a
    | some c => .mk a.root (mapSet a.subAggregations k (some (c.modifyAt rest f)))

/-- Method `(a *tree) Inject(subAggregation, path ...string)`: empty path is
`ErrNoPath`; a single segment sets `a.subAggregations[path[0]]`; otherwise the
cursor `a.Select(path[:len(path)-1])` is tested with `IsNilTree` and, when
usable, receives the final single-segment inject (an in-place mutation of the
selected node, rendered with `modifyAt`). -/
def Aggregation.Inject (a : Aggregation) (sub : Aggregation) (path : List String) :
    Option AggError × Aggregation :=
  match path with
  | [] => (some .ErrNoPath, a)
  | [k] => (none, .mk a.root (mapSet a.subAggregations k (some sub)))
  | k1 :: k2 :: rest =>
    let p := k1 :: k2 :: rest
    let cursor := a.Select p.dropLast
    if IsNilTree cursor then
      (some .ErrPathNotSelectable, a)
    else
      (none, a.modifyAt p.dropLast
        (fun c => .mk c.root (mapSet c.subAggregations (p.getLastD "") (some sub))))

/-- Method `(a *tree) InjectX(subAggregation, path ...string)`: empty path is
`ErrNoPath`; otherwise inject only when `a.Select(path)` is nil per
`IsNilTree`, and return success without changing anything when it is not. -/
def Aggregation.InjectX (a : Aggregation) (sub : Aggregation) (path : List String) :
    Option AggError × Aggregation :=
  match path with
  | [] => (some .ErrNoPath, a)
  | _ :: _ =>
    if IsNilTree (a.Select path) then a.Inject sub path
    else (none, a)

/-- Method `(a *tree) Pop(path ...string)`: empty path or missing first
segment yields nil; a single segment deletes and returns the entry; otherwise
the pop is delegated to the child (mutating it in place, rendered as a
writeback of the updated child). -/
def Aggregation.Pop : Aggregation → List String → Option Aggregation × Aggregation
  | a, [] => (none, a)
  | a, k :: rest =>
    match a.subAggregations k with
    | none => (none, a)
    | some subAgg =>
      match rest with
      | [] => (some subAgg, .mk a.root (mapSet a.subAggregations k none))
      | _ =>
        let r := subAgg.Pop rest
        (r.1, .mk a.root (mapSet a.subAggregations k (some r.2)))

/-- Method `(a *Aggregations) Export()`: nil receiver yields the empty result
map; otherwise every entry is mapped to its own `Export`. -/
def Aggregations.Export : Option Aggregations → (String → Option (Option ElasticAgg))
  | none, _ => none
  | some m, k => (m k).map Aggregation.Export

/-- Body of `(a *Aggregations) Select(path ...string)` once the receiver is
known non-nil: first hop through the collection map, then the entry descends. -/
def Aggregations.Select : Aggregations → List String → Option Aggregation
  | _, [] => none
  | m, k :: rest =>
    match m k with
    | none => none
    | some base =>
      match rest with
      | [] => some base
      | _ => base.Select rest

/-- Method `(a *Aggregations) Select` on the pointer receiver, which the
source never tests for nil: the empty-path guard runs before the dereference,
so a nil receiver with a non-empty path hits a nil-pointer dereference,
modelled as the outer `none`. -/
def Aggregations.SelectPtr : Option Aggregations → List String → Option (Option Aggregation)
  | _, [] => some none
  | none, _ :: _ => none
  | some m, k :: rest => some (Aggregations.Select m (k :: rest))

/-- Body of `(a *Aggregations) Pop(path ...string)` once the receiver is known
non-nil: single segment deletes at the top level; a longer path delegates to
the entry without deleting anything at the top level. -/
def Aggregations.Pop : Aggregations → List String → Option Aggregation × Aggregations
  | m, [] => (none, m)
  | m, k :: rest =>
    match m k with
    | none => (none, m)
    | some base =>
      match rest with
      | [] => (some base, mapSet m k none)
      | _ =>
        let r := base.Pop rest
        (r.1, mapSet m k (some r.2))

/-- Method `(a *Aggregations) Pop` on the pointer receiver, which the source
never tests for nil: the empty-path guard runs before the dereference, so a
nil receiver with a non-empty path hits a nil-pointer dereference, modelled as
the outer `none`. -/
def Aggregations.PopPtr : Option Aggregations → List String →
    Option (Option Aggregation × Option Aggregations)
  | a, [] => some (none, a)
  | none, _ :: _ => none
  | some m, k :: rest =>
    some ((Aggregations.Pop m (k :: rest)).1, some (Aggregations.Pop m (k :: rest)).2)

/-- Method `(a *Aggregations) Inject(subAgg, path ...string)`: nil receiver is
`ErrAggIsNotInjectable`; empty path is `ErrNoPath`; a single segment inserts
or overwrites at the top level; a longer path requires the first segment to be
a present key (a bare map-presence test) and delegates the rest to that
entry. -/
def Aggregations.Inject : Option Aggregations → Aggregation → List String →
    Option AggError × Option Aggregations
  | none, _, _ => (some .ErrAggIsNotInjectable, none)
  | some m, sub, path =>
    match path with
    | [] => (some .ErrNoPath, some m)
    | [k] => (none, some (mapSet m k (some sub)))
    | k :: rest =>
      match m k with
      | none => (some .ErrAggIsNotInjectable, some m)
      | some base =>
        ((base.Inject sub rest).1, some (mapSet m k (some (base.Inject sub rest).2)))

/-- Method `(a *Aggregations) InjectX(subAgg, path ...string)`: nil receiver is
`ErrAggIsNotInjectable`; empty path is `ErrNoPath`; a single segment inserts
only when the key is absent (a bare map-presence test) and succeeds either
way; a longer path requires the first segment to be a present key and
delegates the rest to that entry. -/
def Aggregations.InjectX : Option Aggregations → Aggregation → List String →
    Option AggError × Option Aggregations
  | none, _, _ => (some .ErrAggIsNotInjectable, none)
  | some m, sub, path =>
    match path with
    | [] => (some .ErrNoPath, some m)
    | [k] =>
      match m k with
      | none => (none, some (mapSet m k (some sub)))
      | some _ => (none, some m)
    | k :: rest =>
      match m k with
      | none => (some .ErrAggIsNotInjectable, some m)
      | some base =>
        ((base.InjectX sub rest).1, some (mapSet m k (some (base.InjectX sub rest).2)))

/-! ### Basic lemmas about the map model and path splitting -/

/-- Evaluation rule for `mapSet`. -/
theorem mapSet_apply (m : Aggregations) (k q : String) (v : Option Aggregation) :
    mapSet m k v q = if q = k then v else m q := rfl

/-- Updating a key with the value it already holds is the identity. -/
theorem mapSet_eq_self (m : Aggregations) (k : String) (v : Option Aggregation)
    (h : m k = v) : mapSet m k v = m := by
  funext q
  by_cases hq : q = k
  · subst hq; simp [mapSet, h]
  · simp [mapSet, hq]

/-- Consecutive updates at the same key collapse to the last one. -/
theorem mapSet_mapSet (m : Aggregations) (k : String) (v w : Option Aggregation) :
    mapSet (mapSet m k v) k w = mapSet m k w := by
  funext q
  by_cases hq : q = k <;> simp [mapSet, hq]

/-- Eta rule for the node structure. -/
theorem Aggregation.eta (a : Aggregation) :
    Aggregation.mk a.root a.subAggregations = a := by
  cases a; rfl

/-- Splitting a non-empty path into its prefix and final segment. -/
theorem dropLast_append_getLastD (l : List String) (d : String) (h : l ≠ []) :
    l.dropLast ++ [l.getLastD d] = l := by
  induction l generalizing d with
  | nil => exact absurd rfl h
  | cons x xs ih =>
    cases xs with
    | nil => rfl
    | cons y ys =>
      show x :: ((y :: ys).dropLast ++ [(y :: ys).getLastD x]) = x :: (y :: ys)
      rw [ih x (by simp)]

/-! ### Lemmas about Select, modifyAt, Inject and Pop on the node adapter -/

/-- Selection along a concatenated path descends through the first part and
then the second. -/
theorem select_append (p q : List String) (hp : p ≠ []) (hq : q ≠ [])
    (a : Aggregation) :
    a.Select (p ++ q) = (a.Select p).bind (fun c => c.Select q) := by
  induction p generalizing a with
  | nil => exact absurd rfl hp
  | cons k rest ih =>
    cases hsub : a.subAggregations k with
    | none => cases rest <;> simp [Aggregation.Select, hsub]
    | some s =>
      cases rest with
      | nil =>
        cases q with
        | nil => exact absurd rfl hq
        | cons q1 qs => simp [Aggregation.Select, hsub]
      | cons r rs =>
        simpa [Aggregation.Select, hsub] using ih (by simp) s

/-- Rewriting the node that a path resolves changes exactly what that path
then selects. -/
theorem select_modifyAt (p : List String) (f : Aggregation → Aggregation) :
    ∀ a c : Aggregation, a.Select p = some c →
      (a.modifyAt p f).Select p = some (f c) := by
  induction p with
  | nil =>
    intro a c h
    simp [Aggregation.Select] at h
  | cons k rest ih =>
    intro a c h
    obtain ⟨ar, as⟩ := a
    cases hsub : as k with
    | none => simp [Aggregation.Select, Aggregation.subAggregations, hsub] at h
    | some s =>
      cases rest with
      | nil =>
        have hs : s = c := by
          simpa [Aggregation.Select, Aggregation.subAggregations, hsub] using h
        subst hs
        simp [Aggregation.modifyAt, Aggregation.subAggregations, hsub,
          Aggregation.Select, mapSet]
      | cons r rs =>
        have h2 : s.Select (r :: rs) = some c := by
          simpa [Aggregation.Select, Aggregation.subAggregations, hsub] using h
        simpa [Aggregation.modifyAt, Aggregation.subAggregations, hsub,
          Aggregation.Select, mapSet] using ih s c h2

/-- Core of claim C1: a successful `Inject` makes `Select` of the same path
return exactly the injected node. -/
theorem inject_select (a n : Aggregation) (p : List String) (hp : p ≠ [])
    (h : (a.Inject n p).1 = none) :
    ((a.Inject n p).2).Select p = some n := by
  match p with
  | [] => exact absurd rfl hp
  | [k] =>
    simp [Aggregation.Inject, Aggregation.Select, Aggregation.subAggregations, mapSet]
  | k1 :: k2 :: rest =>
    have hdef : a.Inject n (k1 :: k2 :: rest) =
        (if IsNilTree (a.Select ((k1 :: k2 :: rest).dropLast)) = true then
          (some .ErrPathNotSelectable, a)
        else
          (none, a.modifyAt ((k1 :: k2 :: rest).dropLast)
            (fun c => .mk c.root
              (mapSet c.subAggregations ((k1 :: k2 :: rest).getLastD "") (some n))))) := rfl
    rw [hdef] at h ⊢
    by_cases hnil : IsNilTree (a.Select ((k1 :: k2 :: rest).dropLast)) = true
    · rw [if_pos hnil] at h
      simp at h
    · rw [if_neg hnil] at h ⊢
      obtain ⟨c, hc⟩ : ∃ c, a.Select ((k1 :: k2 :: rest).dropLast) = some c := by
        cases hc : a.Select ((k1 :: k2 :: rest).dropLast) with
        | none => rw [hc] at hnil; simp [IsNilTree] at hnil
        | some c => exact ⟨c, rfl⟩
      have hpfx : (k1 :: k2 :: rest).dropLast ≠ [] := by
        show k1 :: (k2 :: rest).dropLast ≠ []
        simp
      set pfx := (k1 :: k2 :: rest).dropLast with hpfxdef
      set lst := (k1 :: k2 :: rest).getLastD "" with hlstdef
      have hsplit : pfx ++ [lst] = k1 :: k2 :: rest :=
        dropLast_append_getLastD (k1 :: k2 :: rest) "" (by simp)
      show (a.modifyAt pfx
        (fun c => .mk c.root (mapSet c.subAggregations lst (some n)))).Select
          (k1 :: k2 :: rest) = some n
      rw [← hsplit]
      rw [select_append pfx [lst] hpfx (by simp)]
      rw [select_modifyAt pfx _ a c hc]
      simp [Aggregation.Select, Aggregation.subAggregations, mapSet]

/-- The value returned by `Pop` is exactly what `Select` finds at that path. -/
theorem pop_fst_eq_select (p : List String) :
    ∀ a : Aggregation, (a.Pop p).1 = a.Select p := by
  induction p with
  | nil => intro a; rfl
  | cons k rest ih =>
    intro a
    obtain ⟨ar, as⟩ := a
    cases hsub : as k with
    | none => simp [Aggregation.Pop, Aggregation.Select, Aggregation.subAggregations, hsub]
    | some s =>
      cases rest with
      | nil => simp [Aggregation.Pop, Aggregation.Select, Aggregation.subAggregations, hsub]
      | cons r rs =>
        simpa [Aggregation.Pop, Aggregation.Select, Aggregation.subAggregations, hsub]
          using ih s

/-- A `Pop` that returned nil left the tree exactly as it was. -/
theorem pop_none_unchanged (p : List String) :
    ∀ a : Aggregation, (a.Pop p).1 = none → (a.Pop p).2 = a := by
  induction p with
  | nil => intro a _; rfl
  | cons k rest ih =>
    intro a h
    obtain ⟨ar, as⟩ := a
    cases hsub : as k with
    | none => simp [Aggregation.Pop, Aggregation.subAggregations, hsub]
    | some s =>
      cases rest with
      | nil =>
        simp [Aggregation.Pop, Aggregation.subAggregations, hsub] at h
      | cons r rs =>
        have h1 : (s.Pop (r :: rs)).1 = none := by
          simpa [Aggregation.Pop, Aggregation.subAggregations, hsub] using h
        have h2 := ih s h1
        have hres : ((Aggregation.mk ar as).Pop (k :: r :: rs)).2
            = Aggregation.mk ar (mapSet as k (some ((s.Pop (r :: rs)).2))) := by
          simp [Aggregation.Pop, Aggregation.subAggregations, Aggregation.root, hsub]
        rw [hres, h2, mapSet_eq_self as k (some s) hsub]

/-- After any `Pop` of a path, `Select` of that same path finds nothing. -/
theorem select_after_pop (p : List String) :
    ∀ a : Aggregation, ((a.Pop p).2).Select p = none := by
  induction p with
  | nil => intro a; rfl
  | cons k rest ih =>
    intro a
    obtain ⟨ar, as⟩ := a
    cases hsub : as k with
    | none => simp [Aggregation.Pop, Aggregation.Select, Aggregation.subAggregations, hsub]
    | some s =>
      cases rest with
      | nil =>
        simp [Aggregation.Pop, Aggregation.Select, Aggregation.subAggregations,
          hsub, mapSet]
      | cons r rs =>
        simpa [Aggregation.Pop, Aggregation.Select, Aggregation.subAggregations,
          hsub, mapSet] using ih s

/-- A multi-segment `Pop` preserves which top-level keys are present. -/
theorem pop_preserves_top_keys (a : Aggregation) (k : String) (rest : List String)
    (hrest : rest ≠ []) (q : String) :
    (((a.Pop (k :: rest)).2).subAggregations q).isSome = (a.subAggregations q).isSome := by
  obtain ⟨ar, as⟩ := a
  cases hsub : as k with
  | none => simp [Aggregation.Pop, Aggregation.subAggregations, hsub]
  | some s =>
    cases rest with
    | nil => exact absurd rfl hrest
    | cons r rs =>
      by_cases hq : q = k
      · subst hq
        simp [Aggregation.Pop, Aggregation.subAggregations, hsub, mapSet]
      · simp [Aggregation.Pop, Aggregation.subAggregations, hsub, mapSet, hq]

/-- Full characterization of a resolving `Pop`: it returns the selected node
and rebuilds the tree only along the prefix of the path, with exactly the
final key deleted from the child map of the direct parent of the final
segment. -/
theorem pop_eq_modifyAt (p : List String) :
    ∀ a x : Aggregation, a.Select p = some x →
      a.Pop p = (some x, a.modifyAt p.dropLast
        (fun par => .mk par.root (mapSet par.subAggregations (p.getLastD "") none))) := by
  induction p with
  | nil =>
    intro a x h
    simp [Aggregation.Select] at h
  | cons k rest ih =>
    intro a x h
    obtain ⟨ar, as⟩ := a
    cases hsub : as k with
    | none => simp [Aggregation.Select, Aggregation.subAggregations, hsub] at h
    | some s =>
      cases rest with
      | nil =>
        have hs : s = x := by
          simpa [Aggregation.Select, Aggregation.subAggregations, hsub] using h
        subst hs
        simp [Aggregation.Pop, Aggregation.modifyAt, Aggregation.subAggregations,
          Aggregation.root, hsub]
      | cons r rs =>
        have h2 : s.Select (r :: rs) = some x := by
          simpa [Aggregation.Select, Aggregation.subAggregations, hsub] using h
        have hpop : (Aggregation.mk ar as).Pop (k :: r :: rs)
            = ((s.Pop (r :: rs)).1,
               .mk ar (mapSet as k (some ((s.Pop (r :: rs)).2)))) := by
          simp [Aggregation.Pop, Aggregation.subAggregations, Aggregation.root, hsub]
        have hmod : (Aggregation.mk ar as).modifyAt ((k :: r :: rs).dropLast)
              (fun par => .mk par.root
                (mapSet par.subAggregations ((k :: r :: rs).getLastD "") none))
            = .mk ar (mapSet as k (some (s.modifyAt ((r :: rs).dropLast)
                (fun par => .mk par.root
                  (mapSet par.subAggregations ((r :: rs).getLastD "") none))))) := by
          show (Aggregation.mk ar as).modifyAt (k :: (r :: rs).dropLast) _ = _
          simp [Aggregation.modifyAt, Aggregation.subAggregations, Aggregation.root, hsub]
        rw [hpop, hmod, ih s x h2]

/-- Core of claim C5 on the node adapter: after a successful `InjectX` of a
node with non-nil export, a second `InjectX` at the same path is a successful
no-op. -/
theorem injectX_noop (a n n2 : Aggregation) (p : List String) (hp : p ≠ [])
    (hn : n.Export ≠ none) (h : (a.InjectX n p).1 = none) :
    ((a.InjectX n p).2).InjectX n2 p = (none, (a.InjectX n p).2) := by
  match p with
  | [] => exact absurd rfl hp
  | k :: rest =>
    have hdef : a.InjectX n (k :: rest) =
        (if IsNilTree (a.Select (k :: rest)) = true then a.Inject n (k :: rest)
         else (none, a)) := rfl
    rw [hdef] at h ⊢
    by_cases hnil : IsNilTree (a.Select (k :: rest)) = true
    · rw [if_pos hnil] at h ⊢
      have hsel := inject_select a n (k :: rest) (by simp) h
      have hfalse : IsNilTree (((a.Inject n (k :: rest)).2).Select (k :: rest)) = false := by
        rw [hsel]
        simp [IsNilTree, Aggregation.Export, Option.isNone]
        cases hroot : n.root with
        | none => exact absurd (by simpa [Aggregation.Export] using hroot) hn
        | some v => simp
      show (if IsNilTree (((a.Inject n (k :: rest)).2).Select (k :: rest)) = true
          then ((a.Inject n (k :: rest)).2).Inject n2 (k :: rest)
          else (none, (a.Inject n (k :: rest)).2)) = (none, (a.Inject n (k :: rest)).2)
      rw [hfalse]
      simp
    · rw [if_neg hnil] at h ⊢
      show (if IsNilTree (a.Select (k :: rest)) = true
          then a.Inject n2 (k :: rest) else (none, a)) = (none, a)
      rw [if_neg hnil]

/-- Core of claim C5 on the node adapter, second part: when the first
`InjectX` actually inserted (the path selected nothing usable before), the
path now selects the inserted node. -/
theorem injectX_inserted_select (a n : Aggregation) (p : List String) (hp : p ≠ [])
    (hnil : IsNilTree (a.Select p) = true) (h : (a.InjectX n p).1 = none) :
    ((a.InjectX n p).2).Select p = some n := by
  match p with
  | [] => exact absurd rfl hp
  | k :: rest =>
    have hdef : a.InjectX n (k :: rest) =
        (if IsNilTree (a.Select (k :: rest)) = true then a.Inject n (k :: rest)
         else (none, a)) := rfl
    rw [hdef] at h ⊢
    rw [if_pos hnil] at h ⊢
    exact inject_select a n (k :: rest) (by simp) h

/-- A multi-segment tree `Inject` never produces `ErrAggIsNotInjectable`. -/
theorem inject_fst_ne_notInjectable (c n : Aggregation) (rest : List String)
    (hrest : rest ≠ []) :
    (c.Inject n rest).1 ≠ some .ErrAggIsNotInjectable := by
  match rest with
  | [] => exact absurd rfl hrest
  | [r] => simp [Aggregation.Inject]
  | r1 :: r2 :: rs =>
    have hdef : c.Inject n (r1 :: r2 :: rs) =
        (if IsNilTree (c.Select ((r1 :: r2 :: rs).dropLast)) = true then
          (some .ErrPathNotSelectable, c)
        else
          (none, c.modifyAt ((r1 :: r2 :: rs).dropLast)
            (fun d => .mk d.root
              (mapSet d.subAggregations ((r1 :: r2 :: rs).getLastD "") (some n))))) := rfl
    rw [hdef]
    by_cases hnil : IsNilTree (c.Select ((r1 :: r2 :: rs).dropLast)) = true
    · rw [if_pos hnil]
      intro hcon
      exact AggError.noConfusion (Option.some.inj hcon)
    · rw [if_neg hnil]
      intro hcon
      exact Option.noConfusion hcon

/-- A non-empty-path tree `InjectX` never produces `ErrAggIsNotInjectable`. -/
theorem injectX_fst_ne_notInjectable (c n : Aggregation) (rest : List String)
    (hrest : rest ≠ []) :
    (c.InjectX n rest).1 ≠ some .ErrAggIsNotInjectable := by
  match rest with
  | [] => exact absurd rfl hrest
  | k :: rs =>
    have hdef : c.InjectX n (k :: rs) =
        (if IsNilTree (c.Select (k :: rs)) = true then c.Inject n (k :: rs)
         else (none, c)) := rfl
    rw [hdef]
    by_cases hnil : IsNilTree (c.Select (k :: rs)) = true
    · rw [if_pos hnil]
      exact inject_fst_ne_notInjectable c n (k :: rs) (by simp)
    · rw [if_neg hnil]
      intro hcon
      exact Option.noConfusion hcon

/-- Core of claim C5 on the root collection: after a successful `InjectX` of a
node with non-nil export, a second `InjectX` at the same path is a successful
no-op. -/
theorem aggs_injectX_noop (m : Aggregations) (n n2 : Aggregation) (p : List String)
    (hp : p ≠ []) (hn : n.Export ≠ none)
    (h : (Aggregations.InjectX (some m) n p).1 = none) :
    Aggregations.InjectX ((Aggregations.InjectX (some m) n p).2) n2 p
      = (none, (Aggregations.InjectX (some m) n p).2) := by
  match p with
  | [] => exact absurd rfl hp
  | [k] =>
    cases hk : m k with
    | none =>
      have h1 : Aggregations.InjectX (some m) n [k] = (none, some (mapSet m k (some n))) := by
        simp [Aggregations.InjectX, hk]
      rw [h1]
      simp [Aggregations.InjectX, mapSet]
    | some c =>
      have h1 : Aggregations.InjectX (some m) n [k] = (none, some m) := by
        simp [Aggregations.InjectX, hk]
      rw [h1]
      simp [Aggregations.InjectX, hk]
  | k :: r :: rs =>
    cases hk : m k with
    | none =>
      have : (Aggregations.InjectX (some m) n (k :: r :: rs)).1
          = some .ErrAggIsNotInjectable := by
        simp [Aggregations.InjectX, hk]
      rw [this] at h
      exact absurd h (by simp)
    | some c =>
      have h1 : (c.InjectX n (r :: rs)).1 = none := by
        simpa [Aggregations.InjectX, hk] using h
      have hrec := injectX_noop c n n2 (r :: rs) (by simp) hn h1
      have hstate : (Aggregations.InjectX (some m) n (k :: r :: rs)).2
          = some (mapSet m k (some ((c.InjectX n (r :: rs)).2))) := by
        simp [Aggregations.InjectX, hk]
      rw [hstate]
      have hk2 : (mapSet m k (some ((c.InjectX n (r :: rs)).2))) k
          = some ((c.InjectX n (r :: rs)).2) := by
        simp [mapSet]
      simp [Aggregations.InjectX, hk2, hrec, mapSet_mapSet]

/-- Core of claim C5 on the root collection, second part: a successful
`InjectX` leaves a present collection that either is unchanged (the call was a
no-op) or selects the inserted node at the injected path. -/
theorem aggs_injectX_select (m : Aggregations) (n : Aggregation) (p : List String)
    (hp : p ≠ []) (h : (Aggregations.InjectX (some m) n p).1 = none) :
    ∃ m2, (Aggregations.InjectX (some m) n p).2 = some m2 ∧
      (m2 = m ∨ Aggregations.Select m2 p = some n) := by
  match p with
  | [] => exact absurd rfl hp
  | [k] =>
    cases hk : m k with
    | none =>
      refine ⟨mapSet m k (some n), by simp [Aggregations.InjectX, hk], Or.inr ?_⟩
      simp [Aggregations.Select, mapSet]
    | some c =>
      exact ⟨m, by simp [Aggregations.InjectX, hk], Or.inl rfl⟩
  | k :: r :: rs =>
    cases hk : m k with
    | none =>
      have : (Aggregations.InjectX (some m) n (k :: r :: rs)).1
          = some .ErrAggIsNotInjectable := by
        simp [Aggregations.InjectX, hk]
      rw [this] at h
      exact absurd h (by simp)
    | some c =>
      have h1 : (c.InjectX n (r :: rs)).1 = none := by
        simpa [Aggregations.InjectX, hk] using h
      refine ⟨mapSet m k (some ((c.InjectX n (r :: rs)).2)),
        by simp [Aggregations.InjectX, hk], ?_⟩
      have hdef : c.InjectX n (r :: rs) =
          (if IsNilTree (c.Select (r :: rs)) = true then c.Inject n (r :: rs)
           else (none, c)) := rfl
      by_cases hnil : IsNilTree (c.Select (r :: rs)) = true
      · refine Or.inr ?_
        have hsel : ((c.InjectX n (r :: rs)).2).Select (r :: rs) = some n :=
          injectX_inserted_select c n (r :: rs) (by simp) hnil h1
        have hlook : (mapSet m k (some ((c.InjectX n (r :: rs)).2))) k
            = some ((c.InjectX n (r :: rs)).2) := by
          simp [mapSet]
        simp [Aggregations.Select, hlook, hsel]
      · refine Or.inl ?_
        have hc2 : (c.InjectX n (r :: rs)).2 = c := by
          rw [hdef, if_neg hnil]
        rw [hc2]
        exact mapSet_eq_self m k (some c) hk

/-- A multi-segment collection `Pop` preserves which top-level keys are
present. -/
theorem aggs_pop_preserves_top_keys (m : Aggregations) (k : String)
    (rest : List String) (hrest : rest ≠ []) (q : String) :
    ((Aggregations.Pop m (k :: rest)).2 q).isSome = (m q).isSome := by
  cases hk : m k with
  | none => simp [Aggregations.Pop, hk]
  | some base =>
    cases rest with
    | nil => exact absurd rfl hrest
    | cons r rs =>
      by_cases hq : q = k
      · subst hq; simp [Aggregations.Pop, hk, mapSet]
      · simp [Aggregations.Pop, hk, mapSet, hq]

/-- A collection `Pop` that returned nil left the collection exactly as it
was. -/
theorem aggs_pop_none_unchanged (m : Aggregations) (p : List String)
    (h : (Aggregations.Pop m p).1 = none) : (Aggregations.Pop m p).2 = m := by
  cases p with
  | nil => rfl
  | cons k rest =>
    cases hk : m k with
    | none => simp [Aggregations.Pop, hk]
    | some base =>
      cases rest with
      | nil => simp [Aggregations.Pop, hk] at h
      | cons r rs =>
        have h1 : (base.Pop (r :: rs)).1 = none := by
          simpa [Aggregations.Pop, hk] using h
        have h2 := pop_none_unchanged (r :: rs) base h1
        have hres : (Aggregations.Pop m (k :: r :: rs)).2
            = mapSet m k (some ((base.Pop (r :: rs)).2)) := by
          simp [Aggregations.Pop, hk]
        rw [hres, h2, mapSet_eq_self m k (some base) hk]

/-! ### Concrete values used by witnesses and counterexamples -/

/-- The empty child map, `make(map[string]Aggregation)`. -/
def emptySubs : String → Option Aggregation := fun _ => none

/-- A concrete node with a non-nil export and no children. -/
def leafOne : Aggregation := .mk (some 1) emptySubs

/-- A second concrete node, distinct from `leafOne`. -/
def leafTwo : Aggregation := .mk (some 2) emptySubs

/-- A degenerate node: present as a value, but its export is nil, so
`IsNilTree` holds of it. -/
def degenNode : Aggregation := .mk none emptySubs

/-- A concrete root node with no children. -/
def baseNode : Aggregation := .mk (some 0) emptySubs

/-- The empty root collection. -/
def emptyAggs : Aggregations := fun _ => none

/-- A concrete inner leaf used by the C4 counterexample. -/
def innerLeaf : Aggregation := .mk (some 5) emptySubs

/-- A degenerate node that nevertheless has a child `"b"`. -/
def degenMid : Aggregation := .mk none (fun q => if q = "b" then some innerLeaf else none)

/-- A tree whose child `"a"` is the degenerate `degenMid`. -/
def outerTree : Aggregation := .mk (some 0) (fun q => if q = "a" then some degenMid else none)

/-- A collection whose entry `"x"` is the degenerate `degenNode`. -/
def degenColl : Aggregations := fun q => if q = "x" then some degenNode else none

/-- A concrete parent node holding `leafTwo` at key `"b"`. -/
def innerParent : Aggregation := .mk (some 1) (mapSet emptySubs "b" (some leafTwo))

/-- A concrete two-level tree: `"a"` maps to `innerParent`. -/
def nestedTree : Aggregation := .mk (some 0) (mapSet emptySubs "a" (some innerParent))

/-! ### Claim theorems -/

/-- C1: for every node adapter, every non-empty path `p` and every node `n`,
if `Inject(n, p)` returns success then `Select(p)` immediately afterwards
returns a node identical to `n`. -/
theorem claim_inject_then_select (a n : Aggregation) (p : List String)
    (hp : p ≠ []) (h : (a.Inject n p).1 = none) :
    ((a.Inject n p).2).Select p = some n :=
  inject_select a n p hp h

/-- Witness for C1: a concrete successful inject at path `["a"]` followed by a
select of the same path returning the injected node. -/
theorem claim_inject_then_select_witness :
    (["a"] ≠ ([] : List String)) ∧ (baseNode.Inject leafOne ["a"]).1 = none ∧
    ((baseNode.Inject leafOne ["a"]).2).Select ["a"] = some leafOne :=
  ⟨by simp, rfl, claim_inject_then_select baseNode leafOne ["a"] (by simp) rfl⟩

/-- C6: for every node adapter, non-empty path `p` and node `n`, after
`Inject(n, p)` succeeds, `Pop(p)` returns `n`, and afterwards `Select(p)`
returns nil. -/
theorem claim_inject_pop_select (a n : Aggregation) (p : List String)
    (hp : p ≠ []) (h : (a.Inject n p).1 = none) :
    (((a.Inject n p).2).Pop p).1 = some n ∧
    ((((a.Inject n p).2).Pop p).2).Select p = none := by
  constructor
  · rw [pop_fst_eq_select]
    exact inject_select a n p hp h
  · exact select_after_pop p _

/-- Witness for C6: a concrete inject at `["a"]`, popped back, after which the
path selects nothing. -/
theorem claim_inject_pop_select_witness :
    (["a"] ≠ ([] : List String)) ∧ (baseNode.Inject leafOne ["a"]).1 = none ∧
    ((((baseNode.Inject leafOne ["a"]).2).Pop ["a"]).1 = some leafOne ∧
      (((((baseNode.Inject leafOne ["a"]).2).Pop ["a"]).2)).Select ["a"] = none) :=
  ⟨by simp, rfl, claim_inject_pop_select baseNode leafOne ["a"] (by simp) rfl⟩

/-- C7: `Inject` with an empty path returns `ErrNoPath` and leaves all state
unchanged, on the node adapter and on a (present) root collection alike. -/
theorem claim_inject_empty_path (a n : Aggregation) (m : Aggregations) :
    a.Inject n [] = (some .ErrNoPath, a) ∧
    Aggregations.Inject (some m) n [] = (some .ErrNoPath, some m) :=
  ⟨rfl, rfl⟩

/-- C10: collection `Select` and `Pop` have no nil-receiver guard: on a nil
collection they reach the nil dereference (outer `none`) for every non-empty
path, and are safe for every path exactly when the collection exists; the
empty-path guard still returns before the dereference, and `Export`, `Inject`
and `InjectX` all handle the nil receiver without dereferencing it. -/
theorem claim_aggs_nil_receiver (m : Aggregations) (n : Aggregation)
    (k : String) (rest p : List String) :
    Aggregations.SelectPtr none (k :: rest) = none ∧
    Aggregations.PopPtr none (k :: rest) = none ∧
    (Aggregations.SelectPtr (some m) p).isSome = true ∧
    (Aggregations.PopPtr (some m) p).isSome = true ∧
    Aggregations.SelectPtr none [] = some none ∧
    Aggregations.PopPtr none [] = some (none, none) ∧
    Aggregations.Export none = (fun _ => none) ∧
    Aggregations.Inject none n p = (some .ErrAggIsNotInjectable, none) ∧
    Aggregations.InjectX none n p = (some .ErrAggIsNotInjectable, none) := by
  refine ⟨rfl, rfl, ?_, ?_, rfl, rfl, rfl, rfl, rfl⟩
  · cases p <;> rfl
  · cases p <;> rfl

/-- C8: collection `Export` maps exactly the present top-level keys — its
result is present at a key exactly when the collection is, with no entries
invented at absent keys — each present key to the result of the own `Export`
of the entry, and an absent collection exports the empty mapping. -/
theorem claim_aggs_export (m : Aggregations) (k : String) (v : Aggregation) :
    Aggregations.Export none = (fun _ => none) ∧
    ((Aggregations.Export (some m) k).isSome = (m k).isSome) ∧
    (m k = some v → Aggregations.Export (some m) k = some v.Export) ∧
    (m k = none → Aggregations.Export (some m) k = none) := by
  refine ⟨rfl, ?_, ?_, ?_⟩
  · show ((m k).map Aggregation.Export).isSome = (m k).isSome
    cases m k <;> rfl
  · intro h
    show (m k).map Aggregation.Export = some v.Export
    rw [h]
    rfl
  · intro h
    show (m k).map Aggregation.Export = none
    rw [h]
    rfl

/-- Witness for C8 on a concrete one-entry collection, exercising both a
present key and an absent key. -/
theorem claim_aggs_export_witness :
    (mapSet emptyAggs "a" (some leafOne)) "a" = some leafOne ∧
    (mapSet emptyAggs "a" (some leafOne)) "zz" = none ∧
    (Aggregations.Export none = (fun _ => none) ∧
      ((Aggregations.Export (some (mapSet emptyAggs "a" (some leafOne))) "a").isSome
        = ((mapSet emptyAggs "a" (some leafOne)) "a").isSome) ∧
      Aggregations.Export (some (mapSet emptyAggs "a" (some leafOne))) "a"
        = some leafOne.Export) ∧
    Aggregations.Export (some (mapSet emptyAggs "a" (some leafOne))) "zz" = none := by
  have ha := claim_aggs_export (mapSet emptyAggs "a" (some leafOne)) "a" leafOne
  have hz := claim_aggs_export (mapSet emptyAggs "a" (some leafOne)) "zz" leafOne
  exact ⟨rfl, rfl, ⟨ha.1, ha.2.1, ha.2.2.1 rfl⟩, hz.2.2.2 rfl⟩

/-- C3: root-collection `Inject` fails with `ErrAggIsNotInjectable` on an
absent collection and on a multi-element path whose first element is absent
from the top level; with the first element present it delegates the remaining
path to that entry (succeeding outright for a two-element path); a
single-element path inserts or overwrites directly. -/
theorem claim_aggs_inject (m : Aggregations) (n c : Aggregation) (k y : String)
    (rest p : List String) (hrest : rest ≠ []) :
    Aggregations.Inject none n p = (some .ErrAggIsNotInjectable, none) ∧
    (m k = none →
      Aggregations.Inject (some m) n (k :: rest) = (some .ErrAggIsNotInjectable, some m)) ∧
    (m k = some c →
      Aggregations.Inject (some m) n (k :: rest)
        = ((c.Inject n rest).1, some (mapSet m k (some ((c.Inject n rest).2))))) ∧
    (m k = some c → (Aggregations.Inject (some m) n [k, y]).1 = none) ∧
    Aggregations.Inject (some m) n [k] = (none, some (mapSet m k (some n))) := by
  obtain ⟨r, rs, hr⟩ : ∃ r rs, rest = r :: rs := by
    cases rest with
    | nil => exact absurd rfl hrest
    | cons r rs => exact ⟨r, rs, rfl⟩
  subst hr
  refine ⟨rfl, ?_, ?_, ?_, rfl⟩
  · intro hk
    simp [Aggregations.Inject, hk]
  · intro hk
    simp [Aggregations.Inject, hk]
  · intro hk
    simp [Aggregations.Inject, hk, Aggregation.Inject]

/-- Witness for C3 at concrete inputs: absent first element fails, present
first element accepts a two-segment inject. -/
theorem claim_aggs_inject_witness :
    (["y"] ≠ ([] : List String)) ∧
    Aggregations.Inject none leafOne ["x", "y"] = (some .ErrAggIsNotInjectable, none) ∧
    (Aggregations.Inject (some emptyAggs) leafOne ["x", "y"]
      = (some .ErrAggIsNotInjectable, some emptyAggs)) ∧
    ((Aggregations.Inject (some (mapSet emptyAggs "x" (some baseNode))) leafOne
        ["x", "y"]).1 = none) := by
  have h := claim_aggs_inject (mapSet emptyAggs "x" (some baseNode)) leafOne baseNode
    "x" "y" ["y"] ["x", "y"] (by simp)
  have h0 := claim_aggs_inject emptyAggs leafOne baseNode "x" "y" ["y"] ["x", "y"]
    (by simp)
  exact ⟨by simp, h0.1, h0.2.1 rfl, h.2.2.2.1 rfl⟩

/-- C9: a multi-segment `Pop` preserves the top-level key set of the receiver
(removal happens only inside the direct parent of the final segment), and a `Pop`
that fails to resolve (empty path or missing segment, signalled by the nil
result) mutates nothing — on the node adapter and the root collection alike. -/
theorem claim_pop_frame (a : Aggregation) (m : Aggregations) (k q : String)
    (rest p : List String) (x par base : Aggregation) (hrest : rest ≠ []) :
    ((((a.Pop (k :: rest)).2).subAggregations q).isSome = (a.subAggregations q).isSome) ∧
    ((a.Pop p).1 = none → (a.Pop p).2 = a) ∧
    (((Aggregations.Pop m (k :: rest)).2 q).isSome = (m q).isSome) ∧
    ((Aggregations.Pop m p).1 = none → (Aggregations.Pop m p).2 = m) ∧
    (a.Select (k :: rest) = some x →
      a.Pop (k :: rest) = (some x, a.modifyAt ((k :: rest).dropLast)
        (fun par2 => .mk par2.root
          (mapSet par2.subAggregations ((k :: rest).getLastD "") none)))) ∧
    (a.Select ((k :: rest).dropLast) = some par → a.Select (k :: rest) = some x →
      ((a.Pop (k :: rest)).2).Select ((k :: rest).dropLast)
        = some (.mk par.root
            (mapSet par.subAggregations ((k :: rest).getLastD "") none))) ∧
    (((a.Pop p).2).Select p = none) ∧
    (m k = some base →
      Aggregations.Pop m (k :: rest)
        = ((base.Pop rest).1, mapSet m k (some ((base.Pop rest).2)))) ∧
    (m k = some base →
      Aggregations.Pop m [k] = (some base, mapSet m k none)) := by
  obtain ⟨r, rs, hr⟩ : ∃ r rs, rest = r :: rs := by
    cases rest with
    | nil => exact absurd rfl hrest
    | cons r rs => exact ⟨r, rs, rfl⟩
  subst hr
  refine ⟨pop_preserves_top_keys a k (r :: rs) (by simp) q,
    pop_none_unchanged p a,
    aggs_pop_preserves_top_keys m k (r :: rs) (by simp) q,
    aggs_pop_none_unchanged m p,
    fun hsel => pop_eq_modifyAt (k :: r :: rs) a x hsel,
    ?_,
    select_after_pop p a,
    ?_,
    ?_⟩
  · intro hpar hsel
    have h5 := pop_eq_modifyAt (k :: r :: rs) a x hsel
    have h6 : (a.Pop (k :: r :: rs)).2
        = a.modifyAt ((k :: r :: rs).dropLast)
          (fun par2 => .mk par2.root
            (mapSet par2.subAggregations ((k :: r :: rs).getLastD "") none)) := by
      rw [h5]
    rw [h6]
    exact select_modifyAt ((k :: r :: rs).dropLast) _ a par hpar
  · intro hk
    simp [Aggregations.Pop, hk]
  · intro hk
    simp [Aggregations.Pop, hk]

/-- Witness for C9: a two-level tree popped at a two-segment path keeps its
top-level key, the pop removes exactly the addressed entry from the direct
parent and returns it, the path selects nothing afterwards, a failed pop at a
missing path changes nothing, and the collection delegates a two-segment pop
without top-level deletion while a single-segment pop deletes at the top
level. -/
theorem claim_pop_frame_witness :
    (["b"] ≠ ([] : List String)) ∧
    nestedTree.Select ["a", "b"] = some leafTwo ∧
    nestedTree.Select (["a", "b"].dropLast) = some innerParent ∧
    (mapSet emptyAggs "a" (some innerParent)) "a" = some innerParent ∧
    ((((nestedTree.Pop ["a", "b"]).2).subAggregations "a").isSome
      = ((nestedTree.subAggregations "a").isSome)) ∧
    (nestedTree.Pop ["a", "b"]
      = (some leafTwo, nestedTree.modifyAt (["a", "b"].dropLast)
          (fun par2 => .mk par2.root
            (mapSet par2.subAggregations (["a", "b"].getLastD "") none)))) ∧
    (((nestedTree.Pop ["a", "b"]).2).Select (["a", "b"].dropLast)
      = some (.mk innerParent.root
          (mapSet innerParent.subAggregations (["a", "b"].getLastD "") none))) ∧
    (((nestedTree.Pop ["a", "b"]).2).Select ["a", "b"] = none) ∧
    ((baseNode.Pop ["zz"]).1 = none) ∧ ((baseNode.Pop ["zz"]).2 = baseNode) ∧
    (Aggregations.Pop (mapSet emptyAggs "a" (some innerParent)) ["a", "b"]
      = ((innerParent.Pop ["b"]).1,
         mapSet (mapSet emptyAggs "a" (some innerParent)) "a"
           (some ((innerParent.Pop ["b"]).2)))) ∧
    (Aggregations.Pop (mapSet emptyAggs "a" (some innerParent)) ["a"]
      = (some innerParent,
         mapSet (mapSet emptyAggs "a" (some innerParent)) "a" none)) := by
  have h := claim_pop_frame nestedTree (mapSet emptyAggs "a" (some innerParent))
    "a" "a" ["b"] ["zz"] leafTwo innerParent innerParent (by simp)
  have h2 := claim_pop_frame baseNode emptyAggs "a" "a" ["b"] ["zz"]
    leafTwo innerParent innerParent (by simp)
  refine ⟨by simp, rfl, rfl, rfl, h.1, h.2.2.2.2.1 rfl, h.2.2.2.2.2.1 rfl rfl,
    h.2.2.2.2.2.2.1, rfl, h2.2.1 rfl, h.2.2.2.2.2.2.2.1 rfl, h.2.2.2.2.2.2.2.2 rfl⟩

/-- C2 counterexample: the root collection does not use the nil-tree
predicate for its presence tests.  With `degenColl` holding the degenerate
`degenNode` at key `"x"` (nil per `IsNilTree`), single-segment `InjectX` is a
no-op instead of inserting as it does on the empty collection, and a deep
`Inject` through `"x"` succeeds instead of failing as it does when `"x"` is
absent — so a present-but-degenerate node is not treated like an absent one. -/
theorem claim_nil_tree_checks_cex :
    IsNilTree (some degenNode) = true ∧
    degenColl "x" = some degenNode ∧
    Aggregations.InjectX (some degenColl) leafOne ["x"] = (none, some degenColl) ∧
    Aggregations.InjectX (some emptyAggs) leafOne ["x"]
      = (none, some (mapSet emptyAggs "x" (some leafOne))) ∧
    degenNode ≠ leafOne ∧
    (Aggregations.Inject (some degenColl) leafOne ["x", "y"]).1 = none ∧
    (Aggregations.Inject (some emptyAggs) leafOne ["x", "y"]).1
      = some .ErrAggIsNotInjectable := by
  refine ⟨rfl, rfl, rfl, rfl, ?_, rfl, rfl⟩
  simp [degenNode, leafOne]

/-- C2 amended: the node adapter tests its resolved intermediate node
(`Inject`) and its existence check (`InjectX`) with the nil-tree predicate,
but the root collection tests its first path segment — in `Inject` and in
`InjectX`, for single-segment and multi-segment paths alike — with a bare
map-presence check, so there a present-but-degenerate entry counts as
present. -/
theorem claim_presence_checks (a n c : Aggregation) (m : Aggregations)
    (p : List String) (k k1 k2 : String) (rest rest2 : List String)
    (hp : p ≠ []) (hrest : rest ≠ []) :
    ((a.Inject n (k1 :: k2 :: rest2)).1
      = if IsNilTree (a.Select ((k1 :: k2 :: rest2).dropLast)) = true
        then some .ErrPathNotSelectable else none) ∧
    (a.InjectX n p
      = if IsNilTree (a.Select p) = true then a.Inject n p else (none, a)) ∧
    ((Aggregations.Inject (some m) n (k :: rest)).1 = some .ErrAggIsNotInjectable
      ↔ m k = none) ∧
    (Aggregations.InjectX (some m) n [k]
      = (none, some (if (m k).isSome then m else mapSet m k (some n)))) ∧
    ((Aggregations.InjectX (some m) n (k :: rest)).1 = some .ErrAggIsNotInjectable
      ↔ m k = none) ∧
    (m k = some c →
      Aggregations.InjectX (some m) n (k :: rest)
        = ((c.InjectX n rest).1, some (mapSet m k (some ((c.InjectX n rest).2))))) := by
  obtain ⟨r, rs, hr⟩ : ∃ r rs, rest = r :: rs := by
    cases rest with
    | nil => exact absurd rfl hrest
    | cons r rs => exact ⟨r, rs, rfl⟩
  subst hr
  refine ⟨?_, ?_, ?_, ?_, ?_, ?_⟩
  · have hdef : a.Inject n (k1 :: k2 :: rest2) =
        (if IsNilTree (a.Select ((k1 :: k2 :: rest2).dropLast)) = true then
          (some .ErrPathNotSelectable, a)
        else
          (none, a.modifyAt ((k1 :: k2 :: rest2).dropLast)
            (fun c => .mk c.root
              (mapSet c.subAggregations ((k1 :: k2 :: rest2).getLastD "") (some n))))) := rfl
    rw [hdef]
    by_cases hnil : IsNilTree (a.Select ((k1 :: k2 :: rest2).dropLast)) = true
    · rw [if_pos hnil, if_pos hnil]
    · rw [if_neg hnil, if_neg hnil]
  · cases p with
    | nil => exact absurd rfl hp
    | cons q qs => rfl
  · cases hk : m k with
    | none =>
      constructor
      · intro _; rfl
      · intro _; simp [Aggregations.Inject, hk]
    | some c2 =>
      constructor
      · intro hcon
        have : (Aggregations.Inject (some m) n (k :: r :: rs)).1
            = (c2.Inject n (r :: rs)).1 := by
          simp [Aggregations.Inject, hk]
        rw [this] at hcon
        exact absurd hcon (inject_fst_ne_notInjectable c2 n (r :: rs) (by simp))
      · intro hcon
        exact Option.noConfusion hcon
  · cases hk : m k with
    | none => simp [Aggregations.InjectX, hk]
    | some c2 => simp [Aggregations.InjectX, hk]
  · cases hk : m k with
    | none =>
      constructor
      · intro _; rfl
      · intro _; simp [Aggregations.InjectX, hk]
    | some c2 =>
      constructor
      · intro hcon
        have : (Aggregations.InjectX (some m) n (k :: r :: rs)).1
            = (c2.InjectX n (r :: rs)).1 := by
          simp [Aggregations.InjectX, hk]
        rw [this] at hcon
        exact absurd hcon (injectX_fst_ne_notInjectable c2 n (r :: rs) (by simp))
      · intro hcon
        exact Option.noConfusion hcon
  · intro hk
    simp [Aggregations.InjectX, hk]

/-- Witness for the amended C2 at concrete inputs: the collection checks fire
on the bare-absent key of the empty collection, and delegate through a
present key. -/
theorem claim_presence_checks_witness :
    (["x"] ≠ ([] : List String)) ∧ (["y"] ≠ ([] : List String)) ∧
    (mapSet emptyAggs "x" (some baseNode)) "x" = some baseNode ∧
    (((baseNode.Inject leafOne ["a", "b"]).1
      = if IsNilTree (baseNode.Select (["a", "b"].dropLast)) = true
        then some .ErrPathNotSelectable else none) ∧
     (baseNode.InjectX leafOne ["x"]
      = if IsNilTree (baseNode.Select ["x"]) = true then baseNode.Inject leafOne ["x"]
        else (none, baseNode)) ∧
     ((Aggregations.Inject (some emptyAggs) leafOne ["x", "y"]).1
        = some .ErrAggIsNotInjectable ↔ emptyAggs "x" = none) ∧
     (Aggregations.InjectX (some emptyAggs) leafOne ["x"]
      = (none, some (if (emptyAggs "x").isSome then emptyAggs
          else mapSet emptyAggs "x" (some leafOne)))) ∧
     ((Aggregations.InjectX (some emptyAggs) leafOne ["x", "y"]).1
        = some .ErrAggIsNotInjectable ↔ emptyAggs "x" = none)) ∧
    (Aggregations.InjectX (some (mapSet emptyAggs "x" (some baseNode))) leafOne
        ["x", "y"]
      = ((baseNode.InjectX leafOne ["y"]).1,
         some (mapSet (mapSet emptyAggs "x" (some baseNode)) "x"
           (some ((baseNode.InjectX leafOne ["y"]).2))))) := by
  have h1 := claim_presence_checks baseNode leafOne baseNode emptyAggs ["x"] "x"
    "a" "b" ["y"] [] (by simp) (by simp)
  have h2 := claim_presence_checks baseNode leafOne baseNode
    (mapSet emptyAggs "x" (some baseNode)) ["x"] "x" "a" "b" ["y"] []
    (by simp) (by simp)
  exact ⟨by simp, by simp, rfl,
    ⟨h1.1, h1.2.1, h1.2.2.1, h1.2.2.2.1, h1.2.2.2.2.1⟩,
    h2.2.2.2.2.2 rfl⟩

/-- C4 counterexample: in `outerTree` the intermediate segment `"a"` resolves
to a node that is nil per the nil-tree predicate, yet
`Inject(leafOne, "a", "b", "c")` succeeds and changes the tree, because the
code applies the predicate only to the resolved prefix `Select("a", "b")`. -/
theorem claim_inject_intermediate_cex :
    IsNilTree (outerTree.Select ["a"]) = true ∧
    (outerTree.Inject leafOne ["a", "b", "c"]).1 = none ∧
    (outerTree.Inject leafOne ["a", "b", "c"]).1 ≠ some .ErrPathNotSelectable ∧
    ((outerTree.Inject leafOne ["a", "b", "c"]).2).Select ["a", "b", "c"]
      = some leafOne ∧
    outerTree.Select ["a", "b", "c"] = none := by
  refine ⟨rfl, rfl, ?_, rfl, rfl⟩
  intro hcon
  exact Option.noConfusion hcon

/-- C4 amended: for a path of length at least two, `Inject` returns
`ErrPathNotSelectable` and leaves the tree unchanged (creating no
intermediate nodes) exactly when the resolved prefix — `Select` of all
segments but the last, which in particular is nil whenever some intermediate
segment is missing — is nil per the nil-tree predicate; otherwise it
succeeds. -/
theorem claim_inject_prefix_nil (a n : Aggregation) (k1 k2 : String)
    (rest : List String) :
    (a.Select ((k1 :: k2 :: rest).dropLast) = none →
      a.Inject n (k1 :: k2 :: rest) = (some .ErrPathNotSelectable, a)) ∧
    (IsNilTree (a.Select ((k1 :: k2 :: rest).dropLast)) = true →
      a.Inject n (k1 :: k2 :: rest) = (some .ErrPathNotSelectable, a)) ∧
    (IsNilTree (a.Select ((k1 :: k2 :: rest).dropLast)) = false →
      (a.Inject n (k1 :: k2 :: rest)).1 = none) := by
  have hdef : a.Inject n (k1 :: k2 :: rest) =
      (if IsNilTree (a.Select ((k1 :: k2 :: rest).dropLast)) = true then
        (some .ErrPathNotSelectable, a)
      else
        (none, a.modifyAt ((k1 :: k2 :: rest).dropLast)
          (fun c => .mk c.root
            (mapSet c.subAggregations ((k1 :: k2 :: rest).getLastD "") (some n))))) := rfl
  refine ⟨?_, ?_, ?_⟩
  · intro h
    have hnil : IsNilTree (a.Select ((k1 :: k2 :: rest).dropLast)) = true := by
      rw [h]; rfl
    rw [hdef, if_pos hnil]
  · intro hnil
    rw [hdef, if_pos hnil]
  · intro hnil
    have hne : ¬ IsNilTree (a.Select ((k1 :: k2 :: rest).dropLast)) = true := by
      intro hcon
      rw [hnil] at hcon
      exact Bool.false_ne_true hcon
    rw [hdef, if_neg hne]

/-- Witness for the amended C4: a missing prefix fails and changes nothing; a
present, non-degenerate prefix lets the inject succeed. -/
theorem claim_inject_prefix_nil_witness :
    baseNode.Select ["a"] = none ∧
    baseNode.Inject leafTwo ["a", "b"] = (some .ErrPathNotSelectable, baseNode) ∧
    IsNilTree ((Aggregation.mk (some 0) (mapSet emptySubs "a" (some leafOne))).Select
      ["a"]) = false ∧
    ((Aggregation.mk (some 0) (mapSet emptySubs "a" (some leafOne))).Inject leafTwo
      ["a", "b"]).1 = none :=
  ⟨rfl, (claim_inject_prefix_nil baseNode leafTwo "a" "b" []).1 rfl, rfl,
   (claim_inject_prefix_nil (Aggregation.mk (some 0) (mapSet emptySubs "a"
     (some leafOne))) leafTwo "a" "b" []).2.2 rfl⟩

/-- C5 counterexample: injecting the degenerate `degenNode` first means the
second `InjectX` at the same path finds a node that is nil per the nil-tree
predicate and therefore overwrites it — the second call is not a no-op; and
with the empty path the second call returns `ErrNoPath`, not success. -/
theorem claim_injectx_idem_cex :
    (baseNode.InjectX degenNode ["x"]).1 = none ∧
    ((baseNode.InjectX degenNode ["x"]).2).Select ["x"] = some degenNode ∧
    (((baseNode.InjectX degenNode ["x"]).2).InjectX leafTwo ["x"]).1 = none ∧
    ((((baseNode.InjectX degenNode ["x"]).2).InjectX leafTwo ["x"]).2).Select ["x"]
      = some leafTwo ∧
    degenNode ≠ leafTwo ∧
    (baseNode.InjectX leafOne []).1 = some .ErrNoPath := by
  refine ⟨rfl, rfl, rfl, rfl, ?_, rfl⟩
  simp [degenNode, leafTwo]

/-- C5 amended: for every non-empty path `p` and node `n` whose export is
non-nil, after `InjectX(n, p)` succeeds a second `InjectX(n2, p)` is a
successful no-op, leaving the state — hence `Select(p)` — unchanged, and
equal to `n` when the first call actually inserted; this holds for the node
adapter and for the root collection (whose resulting collection is either
exactly the original, when the first call was a no-op, or selects `n` at `p`,
when it actually inserted). -/
theorem claim_injectx_idempotent (a n n2 : Aggregation) (m : Aggregations)
    (p : List String) (hp : p ≠ []) (hn : n.Export ≠ none) :
    ((a.InjectX n p).1 = none →
      ((a.InjectX n p).2).InjectX n2 p = (none, (a.InjectX n p).2) ∧
      (IsNilTree (a.Select p) = true → ((a.InjectX n p).2).Select p = some n)) ∧
    ((Aggregations.InjectX (some m) n p).1 = none →
      Aggregations.InjectX ((Aggregations.InjectX (some m) n p).2) n2 p
        = (none, (Aggregations.InjectX (some m) n p).2) ∧
      ∃ m2, (Aggregations.InjectX (some m) n p).2 = some m2 ∧
        (m2 = m ∨ Aggregations.Select m2 p = some n)) :=
  ⟨fun h => ⟨injectX_noop a n n2 p hp hn h,
    fun hnil => injectX_inserted_select a n p hp hnil h⟩,
   fun h => ⟨aggs_injectX_noop m n n2 p hp hn h,
    aggs_injectX_select m n p hp h⟩⟩

/-- Witness for the amended C5 at concrete inputs on the node adapter and on
the root collection, including that the concrete collection insert makes the
path select the inserted node. -/
theorem claim_injectx_idempotent_witness :
    (["x"] ≠ ([] : List String)) ∧ leafOne.Export ≠ none ∧
    ((baseNode.InjectX leafOne ["x"]).2).InjectX leafTwo ["x"]
      = (none, (baseNode.InjectX leafOne ["x"]).2) ∧
    ((baseNode.InjectX leafOne ["x"]).2).Select ["x"] = some leafOne ∧
    Aggregations.InjectX ((Aggregations.InjectX (some emptyAggs) leafOne ["x"]).2)
        leafTwo ["x"]
      = (none, (Aggregations.InjectX (some emptyAggs) leafOne ["x"]).2) ∧
    Aggregations.Select (mapSet emptyAggs "x" (some leafOne)) ["x"] = some leafOne := by
  have h := claim_injectx_idempotent baseNode leafOne leafTwo emptyAggs ["x"]
    (by simp) (by simp [leafOne, Aggregation.Export, Aggregation.root])
  refine ⟨by simp, by simp [leafOne, Aggregation.Export, Aggregation.root],
    (h.1 rfl).1, (h.1 rfl).2 rfl, (h.2 rfl).1, ?_⟩
  obtain ⟨m2, hm2, hsel⟩ := (h.2 rfl).2
  have hm2e : m2 = mapSet emptyAggs "x" (some leafOne) := (Option.some.inj hm2).symm
  subst hm2e
  cases hsel with
  | inl hcon =>
    have hx := congrFun hcon "x"
    simp [mapSet, emptyAggs] at hx
  | inr hsel2 => exact hsel2
